import Mathlib

/-!
# FakePic: chunked copy with an animated progress bar

A shallow embedding of `src/FakePic.cpp`.

* `long long`, `int` and `long` values are integers; every arithmetic result is
  reduced with `wrap64` / `wrap32`, so a theorem that needs a result to be exact has
  to show that it stays in range.
* `double` values (`target`, `displayed`, elapsed seconds) are rationals, and
  the literal `0.1` is the rational `1/10`: rounding is not modelled.
* The C runtime and the file system are explicit: an input stream is a byte
  list with a read position and an end-of-file indicator, the output stream is
  the bytes accepted so far together with the room left on the device.
* The window messages dispatched by the `PeekMessage` loop are given by a
  schedule that says how many `WM_PAINT` messages reach the progress window
  after each chunk.
-/

namespace FakePic

/-! ## Machine integers -/

/-- Two's-complement reduction to the range of `long long`. -/
def wrap64 (x : Int) : Int := (x + 2 ^ 63) % 2 ^ 64 - 2 ^ 63

/-- Two's-complement reduction to the range of `int`. -/
def wrap32 (x : Int) : Int := (x + 2 ^ 31) % 2 ^ 32 - 2 ^ 31

/-- Largest value of `long` on the Win32 ABI, where `long` has 32 bits. -/
def LONG_MAX : Int := 2147483647

/-- Largest value of `long long`. -/
def LLONG_MAX : Int := 9223372036854775807

/-- The constant `BUFFER_SIZE` (line 13): 32 MiB. -/
def BUFFER_SIZE : Nat := 32 * 1024 * 1024

/-- Conversion `(int)x` of a `double`: truncation toward zero. -/
def truncToInt (x : ℚ) : Int := if 0 ≤ x then ⌊x⌋ else ⌈x⌉

abbrev Byte := Fin 256

abbrev WString := List Char

/-! ## stdio streams -/

/-- An input `FILE*`: the file's bytes, the read position, the end-of-file indicator. -/
structure InFile where
  data : List Byte
  pos : Nat
  eofFlag : Bool
deriving DecidableEq, Repr

/-- An output `FILE*`: the bytes accepted so far and the room left on the device. -/
structure OutFile where
  data : List Byte
  room : Nat
deriving DecidableEq, Repr

/-- A stream just opened with mode `rb`. -/
def fopenRead (bytes : List Byte) : InFile := { data := bytes, pos := 0, eofFlag := false }

/-- The call `fseek(in, 0, SEEK_END)`. -/
def fseekEnd (f : InFile) : InFile := { f with pos := f.data.length, eofFlag := false }

/-- The call `fseek(in, 0, SEEK_SET)`. -/
def fseekSet (f : InFile) : InFile := { f with pos := 0, eofFlag := false }

/-- The call `ftell(in)`: the position as a `long`, or `-1` when the position does not fit. -/
def ftell (f : InFile) : Int := if (f.pos : Int) ≤ LONG_MAX then (f.pos : Int) else -1

/-- The call `feof(in)`. -/
def feof (f : InFile) : Bool := f.eofFlag

/-- The call `fread(buffer, 1, n, in)`: up to `n` bytes from the read position; the
end-of-file indicator is set when fewer than `n` bytes were left. -/
def fread (n : Nat) (f : InFile) : List Byte × InFile :=
  let got := (f.data.drop f.pos).take n
  (got, { f with pos := f.pos + got.length, eofFlag := f.eofFlag || decide (got.length < n) })

/-- The call `fwrite(buffer, 1, n, out)`: the sink accepts what it has room for; the
value returned is the number of bytes accepted. -/
def fwrite (buf : List Byte) (o : OutFile) : Nat × OutFile :=
  let put := buf.take o.room
  (put.length, { data := o.data ++ put, room := o.room - put.length })

/-- The size `appendFile` measures for a file: `ftell` after seeking to the end
(lines 141 and 142). -/
def measuredSize (bytes : List Byte) : Int := ftell (fseekEnd (fopenRead bytes))

/-! ## Progress state and repaint -/

/-- The global `g_progressState` (lines 15 to 24), window handles left out. -/
structure ProgressState where
  target : ℚ
  displayed : ℚ
  currentFile : WString
  processed : Int
  totalSize : Int
  startTime : ℚ
deriving DecidableEq

/-- The initial value of `g_progressState`. -/
def initialState : ProgressState :=
  { target := 0, displayed := 0, currentFile := [], processed := 0, totalSize := 0, startTime := 0 }

/-- Lines 46 and 47: `delta = target - displayed; displayed += delta * 0.1`. -/
def smoothStep (s : ProgressState) : ProgressState :=
  let delta := s.target - s.displayed
  { s with displayed := s.displayed + delta * (1 / 10) }

/-- A floating-point division whose divisor is checked: `none` stands for a division by zero. -/
def checkedDiv (a b : ℚ) : Option ℚ := if b = 0 then none else some (a / b)

/-- Line 64: `percent > 0 ? elapsedSec * (100 - percent) / percent : 0`. -/
def remainingSec (elapsedSec percent : ℚ) : Option ℚ :=
  if 0 < percent then checkedDiv (elapsedSec * (100 - percent)) percent else some 0

/-- Lines 79 to 82: `SetTimer` when `displayed < 99.99`, `KillTimer` otherwise. The
value is `true` when the 10 ms timer is scheduled after the repaint. -/
def timerAfterPaint (s : ProgressState) : Bool := decide (s.displayed < 9999 / 100)

/-- What one `WM_PAINT` computes besides the new state. -/
structure Painted where
  state : ProgressState
  fillWidth : Int
  gradientDrawn : Bool
  percentShown : Int
  processedMB : Int
  totalMB : Int
  remaining : Option ℚ
  timerScheduled : Bool

/-- The `WM_PAINT` handler (lines 36 to 85) for a client area `width` pixels wide, at
time `now` on the steady clock. -/
def onPaint (width : Int) (now : ℚ) (s : ProgressState) : Painted :=
  let s1 := smoothStep s
  let fillWidth := truncToInt ((width : ℚ) * (s1.displayed / 100))
  { state := s1
    fillWidth := fillWidth
    gradientDrawn := decide (0 < fillWidth)
    percentShown := truncToInt s1.displayed
    processedMB := s1.processed.tdiv (1024 * 1024)
    totalMB := s1.totalSize.tdiv (1024 * 1024)
    remaining := remainingSec (now - s1.startTime) s1.displayed
    timerScheduled := timerAfterPaint s1 }

/-- The effect of `k` successive `WM_PAINT` messages on `g_progressState`. -/
def repaint (k : Nat) (s : ProgressState) : ProgressState := smoothStep^[k] s

/-- The function `UpdateProgress` (lines 94 to 100). -/
def UpdateProgress (fileName : WString) (processed totalSize percent : Int)
    (s : ProgressState) : ProgressState :=
  { s with currentFile := fileName, processed := processed, totalSize := totalSize,
           target := (percent : ℚ) }

/-! ## The copy loop -/

/-- The arguments of one call of `UpdateProgress`. -/
structure UpdateCall where
  fileName : WString
  processed : Int
  totalSize : Int
  percent : Int
deriving DecidableEq, Repr

/-- What `appendFile` reads and writes: the global progress state, the output
stream, and the trace of the `UpdateProgress` calls made so far. -/
structure World where
  progress : ProgressState
  out : OutFile
  calls : List UpdateCall

/-- Ways in which control leaves the normal path. -/
inductive Abort where
  | runtimeError (what : String)
  | divideByZero
deriving DecidableEq, Repr

/-- Line 154: `startPercent + static_cast<int>((processed * (endPercent - startPercent)) / totalSize)`;
`none` when the divisor is zero. -/
def percentOf (startPercent endPercent processed totalSize : Int) : Option Int :=
  if totalSize = 0 then none
  else
    let span := wrap32 (endPercent - startPercent)
    let quotient := wrap64 ((wrap64 (processed * span)).tdiv totalSize)
    some (wrap32 (startPercent + wrap32 quotient))

/-- The loop of lines 149 to 163. `paints p` is the number of `WM_PAINT` messages
the message pump dispatches after the chunk that brings the byte count to `p`.
The result is `none` when `fuel` iterations were not enough. -/
def appendLoop (bufSize : Nat) (paints : Int → Nat) (fileName : WString) (totalSize : Int)
    (startPercent endPercent : Int) : Nat → InFile → Int → World → Option (Except Abort World)
  | 0, _, _, _ => none
  | fuel + 1, inp, processed, w =>
    if feof inp then some (.ok w)
    else
      let buffer := (fread bufSize inp).1
      let inp1 := (fread bufSize inp).2
      if 0 < buffer.length then
        let out1 := (fwrite buffer w.out).2
        let processed1 := wrap64 (processed + buffer.length)
        match percentOf startPercent endPercent processed1 totalSize with
        | none => some (.error .divideByZero)
        | some percent =>
          let progress1 := UpdateProgress fileName processed1 totalSize percent w.progress
          let progress2 := repaint (paints processed1) progress1
          appendLoop bufSize paints fileName totalSize startPercent endPercent fuel inp1 processed1
            { progress := progress2
              out := out1
              calls := w.calls ++ [{ fileName := fileName, processed := processed1,
                                     totalSize := totalSize, percent := percent }] }
      else
        appendLoop bufSize paints fileName totalSize startPercent endPercent fuel inp1 processed w

/-! ## Paths

The decomposition of `std::filesystem::path` for Windows paths, as far as
`extension()` and `stem()` of the two arguments need it. Root names other than a
drive letter and stream suffixes after a colon are not modelled. -/

/-- Directory separators of a Windows path. -/
def isSeparator (c : Char) : Bool := c == '/' || c == '\\'

/-- The path without a leading drive name such as `C:`. -/
def dropDrive (p : WString) : WString :=
  match p with
  | d :: ':' :: rest => if d.isAlpha then rest else p
  | _ => p

/-- The last element of a path, as `path::filename()` gives it. -/
def filename (p : WString) : WString :=
  ((dropDrive p).reverse.takeWhile (fun c => !isSeparator c)).reverse

/-- Index of the dot that starts the extension of a file name, if there is one:
the last dot, unless it is the first character or the name is `.` or `..`. -/
def extensionStart (name : WString) : Option Nat :=
  if name = ['.'] ∨ name = ['.', '.'] then none
  else
    let tail := name.reverse.takeWhile (fun c => c != '.')
    if tail.length + 1 < name.length then some (name.length - tail.length - 1) else none

/-- The extension of a path, dot included, as `path::extension()` gives it. -/
def extension (p : WString) : WString :=
  match extensionStart (filename p) with
  | some i => (filename p).drop i
  | none => []

/-- The file name without its extension, as `path::stem()` gives it. -/
def stem (p : WString) : WString :=
  match extensionStart (filename p) with
  | some i => (filename p).take i
  | none => filename p

/-- The test of line 188 on an extension. -/
def isImageExt (ext : WString) : Bool :=
  ext == ".jpg".toList || ext == ".png".toList || ext == ".jpeg".toList

/-- Lines 184 to 194: the pair `(imgP, zipP)`. -/
def assignRoles (firstPath secondPath : WString) : WString × WString :=
  let ext1 := extension firstPath
  if isImageExt ext1 then (firstPath, secondPath) else (secondPath, firstPath)

/-- Line 196: the name of the output file. -/
def outName (imgP : WString) : WString := stem imgP ++ "_fake".toList ++ extension imgP

/-! ## `appendFile` and `wWinMain` -/

/-- The function `appendFile` (lines 137 to 165). `disk` gives the bytes of the
files that can be opened for reading. -/
def appendFile (fuel bufSize : Nat) (paints : Int → Nat) (disk : WString → Option (List Byte))
    (inPath : WString) (startPercent endPercent : Int) (w : World) : Option (Except Abort World) :=
  match disk inPath with
  | none => some (.error (.runtimeError "无法打开文件"))
  | some bytes =>
    let in0 := fopenRead bytes
    let totalSize := ftell (fseekEnd in0)
    let in1 := fseekSet (fseekEnd in0)
    appendLoop bufSize paints (filename inPath) totalSize startPercent endPercent fuel in1 0 w

/-- Lines 204 and 205: the image phase followed by the archive phase, on one sink.
An abort is returned with the world as it was when control left. -/
def copyPhases (fuel bufSize : Nat) (paints1 paints2 : Int → Nat)
    (disk : WString → Option (List Byte)) (imgP zipP : WString) (w : World) :
    Option (Except (Abort × World) World) :=
  match appendFile fuel bufSize paints1 disk imgP 0 50 w with
  | none => none
  | some (.error a) => some (.error (a, w))
  | some (.ok w1) =>
    match appendFile fuel bufSize paints2 disk zipP 50 100 w1 with
    | none => none
    | some (.error a) => some (.error (a, w1))
    | some (.ok w2) => some (.ok w2)

/-- The dialog shown before the process ends. -/
inductive Dialog where
  | usage
  | success
  | error (what : String)
deriving DecidableEq, Repr

/-- How a run ends: by returning from `wWinMain` with an exit code, after a dialog,
with the name of the output file if one was created and the `UpdateProgress` calls
made; or by a fault that is not a C++ exception. -/
inductive Outcome where
  | exited (code : Int) (dialog : Dialog) (created : Option WString) (calls : List UpdateCall)
  | crashed
deriving DecidableEq, Repr

/-- The function `wWinMain` (lines 167 to 217). `argv` starts with the program
name; `create` gives the room of the sink created for a name, `none` when the
file cannot be created; `t0` is the time at which the progress window is made.
The second component is the output stream when the process ends. -/
def wWinMain (fuel bufSize : Nat) (paints1 paints2 : Int → Nat)
    (disk : WString → Option (List Byte)) (create : WString → Option Nat) (t0 : ℚ)
    (argv : List WString) : Option (Outcome × Option OutFile) :=
  match argv with
  | [_, firstPath, secondPath] =>
    let imgP := (assignRoles firstPath secondPath).1
    let zipP := (assignRoles firstPath secondPath).2
    let name := outName imgP
    match create name with
    | none => some (.exited 1 (.error "无法创建输出文件") none [], none)
    | some room =>
      let w0 : World :=
        { progress := { initialState with startTime := t0 }
          out := { data := [], room := room }
          calls := [] }
      match copyPhases fuel bufSize paints1 paints2 disk imgP zipP w0 with
      | none => none
      | some (.error (.divideByZero, _)) => some (.crashed, none)
      | some (.error (.runtimeError what, w)) =>
        some (.exited 1 (.error what) (some name) w.calls, some w.out)
      | some (.ok w2) => some (.exited 0 .success (some name) w2.calls, some w2.out)
  | _ => some (.exited 0 .usage none [], none)

/-! ## Operations on the progress state -/

/-- The two operations that change `g_progressState`: a call of `UpdateProgress`
and a `WM_PAINT`. -/
inductive Op where
  | update (fileName : WString) (processed totalSize percent : Int)
  | paint (width : Int) (now : ℚ)

/-- The state after an operation. -/
def Op.run (op : Op) (s : ProgressState) : ProgressState :=
  match op with
  | .update fileName processed totalSize percent =>
    UpdateProgress fileName processed totalSize percent s
  | .paint width now => (onPaint width now s).state

/-- An operation whose percent, if it reports one, lies in `[0, 100]`. -/
def Op.inRange (op : Op) : Prop :=
  match op with
  | .update _ _ _ percent => 0 ≤ percent ∧ percent ≤ 100
  | .paint _ _ => True

/-- The state after a sequence of operations. -/
def runOps (ops : List Op) (s : ProgressState) : ProgressState :=
  ops.foldl (fun st op => op.run st) s

/-! ## Specification vocabulary -/

/-- Fuel that lets the loop finish from a stream state over a file of `len` bytes. -/
def fuelNeeded (len : Nat) (inp : InFile) : Nat := if inp.eofFlag then 1 else len - inp.pos + 2

/-- Shape of the `UpdateProgress` calls of one phase over the last `len - pos` bytes of
a file whose measured size is its length `len`. -/
def PhaseTrace (fileName : WString) (s e : Int) (len pos : Nat) (new : List UpdateCall) : Prop :=
  (∀ c ∈ new, (pos : Int) < c.processed ∧ c.processed ≤ len ∧ c.totalSize = len ∧
      c.fileName = fileName ∧ c.percent = s + c.processed * (e - s) / len) ∧
  new.Pairwise (fun a b => a.processed < b.processed) ∧
  (pos < len → new.getLast? = some
      { fileName := fileName, processed := len, totalSize := len, percent := e })

/-- What the progress state holds of the last report: the fields `UpdateProgress`
writes, as set by the last call of `new`, or as they were in `s` when `new` is empty. -/
def lastReport (new : List UpdateCall) (s : ProgressState) : ℚ × WString × Int × Int :=
  match new.getLast? with
  | some c => ((c.percent : ℚ), c.fileName, c.processed, c.totalSize)
  | none => (s.target, s.currentFile, s.processed, s.totalSize)

/-- When the loop is at byte `pos` of a file of `len` bytes with `processed = pos`, and
`len` fits a `long long`, every full chunk boundary `pos + bufSize * (k + 1)` within
the file is the byte count of a call in `new`. -/
def ChunkMarks (bufSize len pos : Nat) (processed : Int) (new : List UpdateCall) : Prop :=
  processed = pos → (len : Int) ≤ LLONG_MAX →
    ∀ k, pos + bufSize * (k + 1) ≤ len →
      ∃ c ∈ new, c.processed = ((pos + bufSize * (k + 1) : Nat) : Int)

/-- The fields of a progress state that `UpdateProgress` writes. -/
def reportFields (s : ProgressState) : ℚ × WString × Int × Int :=
  (s.target, s.currentFile, s.processed, s.totalSize)

/-- Both percents of a progress state lie in `[0, 100]`. -/
def WithinBounds (s : ProgressState) : Prop :=
  0 ≤ s.target ∧ s.target ≤ 100 ∧ 0 ≤ s.displayed ∧ s.displayed ≤ 100

/-! ## Sample inputs -/

/-- A disk with a five-byte image `a.jpg` and a three-byte archive `b.zip`. -/
def demoDisk : WString → Option (List Byte) := fun p =>
  if p = "a.jpg".toList then some [1, 2, 3, 4, 5]
  else if p = "b.zip".toList then some [9, 8, 7]
  else none

/-- A disk on which every file opens and is empty. -/
def emptyDisk : WString → Option (List Byte) := fun _ => some []

/-- The world before the first phase: initial progress state, an empty sink with
`room` bytes of room, no call made. -/
def demoWorld (room : Nat) : World :=
  { progress := initialState, out := { data := [], room := room }, calls := [] }

/-- A state with the target held at 50 and the displayed value already equal to it. -/
def settledAtHalf : ProgressState := { initialState with target := 50, displayed := 50 }

/-- A state with target 100 and nothing displayed yet. -/
def risingToFull : ProgressState := { initialState with target := 100, displayed := 0 }

/-- Three reports and repaints in a row, all within range. -/
def demoOps : List Op :=
  [.update "a.jpg".toList 2 5 20, .paint 580 1, .paint 580 2, .update "a.jpg".toList 5 5 50,
   .paint 580 3]

/-- A command line: the program name and two arguments. -/
def commandLine (first second : String) : List WString :=
  ["FakePic.exe".toList, first.toList, second.toList]

/-! ## Arithmetic of the percent formula -/

theorem wrap64_of_range {x : Int} (h1 : -2 ^ 63 ≤ x) (h2 : x < 2 ^ 63) : wrap64 x = x := by
  unfold wrap64
  omega

theorem wrap32_of_range {x : Int} (h1 : -2 ^ 31 ≤ x) (h2 : x < 2 ^ 31) : wrap32 x = x := by
  unfold wrap32
  omega

theorem scaled_bounds {p t d : Int} (hp : 0 ≤ p) (hpt : p ≤ t) (ht : 0 < t) (hd : 0 ≤ d) :
    0 ≤ p * d / t ∧ p * d / t ≤ d := by
  constructor
  · exact Int.ediv_nonneg (mul_nonneg hp hd) ht.le
  · have h1 : p * d ≤ t * d := mul_le_mul_of_nonneg_right hpt hd
    have h2 : p * d / t ≤ t * d / t := Int.ediv_le_ediv ht h1
    rwa [Int.mul_ediv_cancel_left d ht.ne'] at h2

theorem percentOf_exact {s e p t : Int} (hs : 0 ≤ s) (hse : s < e) (he : e ≤ 100)
    (hp : 0 ≤ p) (hpt : p ≤ t) (ht : 0 < t) (hmax : t ≤ LONG_MAX) :
    percentOf s e p t = some (s + p * (e - s) / t) := by
  have hd : 0 ≤ e - s := by omega
  obtain ⟨hq0, hq1⟩ := scaled_bounds hp hpt ht hd
  have hspan : wrap32 (e - s) = e - s := wrap32_of_range (by omega) (by omega)
  have hprod0 : 0 ≤ p * (e - s) := mul_nonneg hp hd
  have hprod1 : p * (e - s) ≤ LONG_MAX * 100 := by
    have : p ≤ LONG_MAX := le_trans hpt hmax
    exact mul_le_mul this (by omega) hd (by unfold LONG_MAX; omega)
  unfold LONG_MAX at hprod1 hmax
  have hw : wrap64 (p * (e - s)) = p * (e - s) := wrap64_of_range (by omega) (by omega)
  have htd : (p * (e - s)).tdiv t = p * (e - s) / t := Int.tdiv_eq_ediv hprod0 ht.le
  unfold percentOf
  rw [if_neg ht.ne']
  have hq64 : wrap64 (p * (e - s) / t) = p * (e - s) / t :=
    wrap64_of_range (by omega) (by omega)
  have hq32 : wrap32 (p * (e - s) / t) = p * (e - s) / t :=
    wrap32_of_range (by omega) (by omega)
  have hsum : wrap32 (s + p * (e - s) / t) = s + p * (e - s) / t :=
    wrap32_of_range (by omega) (by omega)
  simp only [hspan, hw, htd, hq64, hq32, hsum]

theorem fwrite_nil (o : OutFile) : (fwrite [] o).2 = o := by
  simp [fwrite]

theorem fwrite_append (a b : List Byte) (o : OutFile) :
    (fwrite b (fwrite a o).2).2 = (fwrite (a ++ b) o).2 := by
  rcases Nat.le_total o.room a.length with h | h
  · have h0 : o.room - a.length = 0 := by omega
    simp [fwrite, List.take_append_eq_append_take, List.length_take, h, h0]
  · have h1 : a.take o.room = a := List.take_of_length_le h
    simp only [fwrite, List.take_append_eq_append_take, h1, List.append_assoc, List.length_append,
      List.length_take]
    congr 1
    omega

theorem repaint_succ (k : Nat) (s : ProgressState) :
    repaint (k + 1) s = smoothStep (repaint k s) := by
  unfold repaint
  exact Function.iterate_succ_apply' smoothStep k s

theorem repaint_target (k : Nat) (s : ProgressState) : (repaint k s).target = s.target := by
  induction k with
  | zero => rfl
  | succ k ih => rw [repaint_succ]; exact ih

theorem repaint_reportFields (k : Nat) (s : ProgressState) :
    reportFields (repaint k s) = reportFields s := by
  induction k with
  | zero => rfl
  | succ k ih => rw [repaint_succ]; exact ih

theorem lastReport_cons_cons (a b : UpdateCall) (rest : List UpdateCall) (s t : ProgressState) :
    lastReport (a :: b :: rest) s = lastReport (b :: rest) t := by
  simp only [lastReport, List.getLast?_cons_cons]
  cases h : (b :: rest).getLast? with
  | none => simp at h
  | some c => rfl

theorem appendLoop_run (bufSize : Nat) (hbuf : 0 < bufSize) (paints : Int → Nat)
    (fileName : WString) (totalSize s e : Int) (src : List Byte) :
    ∀ (fuel : Nat) (inp : InFile) (processed : Int) (w : World),
      inp.data = src → inp.pos ≤ src.length →
      (inp.eofFlag = true → inp.pos = src.length) →
      (inp.pos < src.length → totalSize ≠ 0) →
      fuelNeeded src.length inp ≤ fuel →
      ∃ w1, appendLoop bufSize paints fileName totalSize s e fuel inp processed w = some (.ok w1) ∧
        w1.out = (fwrite (src.drop inp.pos) w.out).2 ∧
        (inp.pos = src.length → w1 = w) ∧
        ∃ new, w1.calls = w.calls ++ new ∧
          new.length = (src.length - inp.pos + bufSize - 1) / bufSize ∧
          (∀ c ∈ new, c.totalSize = totalSize ∧
            percentOf s e c.processed c.totalSize = some c.percent) ∧
          (processed = inp.pos → totalSize = src.length → (src.length : Int) ≤ LONG_MAX →
            0 ≤ s → s < e → e ≤ 100 → PhaseTrace fileName s e src.length inp.pos new) ∧
          reportFields w1.progress = lastReport new w.progress ∧
          ChunkMarks bufSize src.length inp.pos processed new := by
  intro fuel
  induction fuel with
  | zero =>
    intro inp processed w _ _ _ _ hfuel
    unfold fuelNeeded at hfuel
    split at hfuel <;> omega
  | succ fuel ih =>
    intro inp processed w hdata hpos heof htot hfuel
    obtain ⟨data, pos, eof⟩ := inp
    simp only at hdata hpos heof htot
    subst hdata
    cases eof with
    | true =>
      have hp : pos = data.length := heof rfl
      refine ⟨w, by simp [appendLoop, feof], ?_, fun _ => rfl, [], by simp, ?_, by simp, ?_,
        rfl, ?_⟩
      · simp [hp, fwrite_nil]
      · simp only [hp, List.length_nil, Nat.sub_self, Nat.zero_add]
        exact (Nat.div_eq_of_lt (by omega)).symm
      · intro _ _ _ _ _ _
        simp [PhaseTrace, hp]
      · intro _ _ k hk
        simp only [hp] at hk
        have : 0 < bufSize * (k + 1) := Nat.mul_pos hbuf (Nat.succ_pos k)
        omega
    | false =>
      simp only [fuelNeeded, Bool.false_eq_true, if_false] at hfuel
      have hgot : ((data.drop pos).take bufSize).length = min bufSize (data.length - pos) := by
        simp [List.length_take, List.length_drop]
      by_cases hz : pos = data.length
      · have hnil : (data.drop pos).take bufSize = [] := by simp [hz]
        have hstep : appendLoop bufSize paints fileName totalSize s e (fuel + 1)
            ⟨data, pos, false⟩ processed w
            = appendLoop bufSize paints fileName totalSize s e fuel ⟨data, pos, true⟩ processed w := by
          simp [appendLoop, feof, fread, hnil, hbuf]
        obtain ⟨w1, h1, h2, h3, h4⟩ := ih ⟨data, pos, true⟩ processed w rfl hpos (fun _ => hz) htot
          (by simp only [fuelNeeded, if_true]; omega)
        exact ⟨w1, by rw [hstep]; exact h1, h2, h3, h4⟩
      · have hlt : pos < data.length := by omega
        have hne : totalSize ≠ 0 := htot hlt
        generalize hgd : (data.drop pos).take bufSize = got at hgot
        have hgpos : 0 < got.length := by rw [hgot]; omega
        have hgle : pos + got.length ≤ data.length := by rw [hgot]; omega
        have hsplit : data.drop pos = got ++ data.drop (pos + got.length) := by
          rw [← List.drop_drop, ← hgd]
          rcases Nat.le_total bufSize (data.drop pos).length with h | h
          · rw [List.length_take, min_eq_left h, List.take_append_drop]
          · rw [List.take_of_length_le h, List.drop_length, List.append_nil]
        obtain ⟨percent, hpc⟩ :
            ∃ p, percentOf s e (wrap64 (processed + got.length)) totalSize = some p := by
          simp [percentOf, hne]
        have hstep : appendLoop bufSize paints fileName totalSize s e (fuel + 1)
            ⟨data, pos, false⟩ processed w
            = appendLoop bufSize paints fileName totalSize s e fuel
                ⟨data, pos + got.length, decide (got.length < bufSize)⟩
                (wrap64 (processed + got.length))
                { progress := repaint (paints (wrap64 (processed + got.length)))
                    (UpdateProgress fileName (wrap64 (processed + got.length)) totalSize percent
                      w.progress)
                  out := (fwrite got w.out).2
                  calls := w.calls ++ [{ fileName := fileName,
                                         processed := wrap64 (processed + got.length),
                                         totalSize := totalSize, percent := percent }] } := by
          simp [appendLoop, feof, fread, hgd, hgpos, hpc]
        obtain ⟨w1, h1, h2, h3, new, hcalls, hcount, htots, h4, hrep, hmarks⟩ :=
          ih ⟨data, pos + got.length, decide (got.length < bufSize)⟩
          (wrap64 (processed + got.length))
          { progress := repaint (paints (wrap64 (processed + got.length)))
              (UpdateProgress fileName (wrap64 (processed + got.length)) totalSize percent
                w.progress)
            out := (fwrite got w.out).2
            calls := w.calls ++ [{ fileName := fileName,
                                   processed := wrap64 (processed + got.length),
                                   totalSize := totalSize, percent := percent }] }
          rfl hgle
          (by
            intro hd
            simp only [decide_eq_true_eq] at hd
            simp only
            omega)
          (fun _ => hne)
          (by
            unfold fuelNeeded
            split
            · omega
            · simp only
              omega)
        simp only at hcalls hcount
        refine ⟨w1, by rw [hstep]; exact h1, ?_, fun h => absurd h hz,
          (⟨fileName, wrap64 (processed + got.length), totalSize, percent⟩ : UpdateCall) :: new,
          ?_, ?_, ?_, ?_, ?_, ?_⟩
        · rw [h2]
          simp only
          rw [fwrite_append, ← hsplit]
        · rw [hcalls]
          simp
        · clear hrep hmarks h4 htots
          rw [List.length_cons, hcount]
          simp only
          rcases Nat.le_total bufSize (data.length - pos) with hb | hb
          · have hg : got.length = bufSize := by rw [hgot]; exact min_eq_left hb
            have hsum : data.length - pos + bufSize - 1
                = (data.length - (pos + got.length) + bufSize - 1) + bufSize := by omega
            rw [hsum, Nat.add_div_right _ hbuf]
          · have hg : got.length = data.length - pos := by rw [hgot]; exact min_eq_right hb
            have h0 : (data.length - (pos + got.length) + bufSize - 1) / bufSize = 0 :=
              Nat.div_eq_of_lt (by omega)
            have hsum : data.length - pos + bufSize - 1
                = (data.length - pos - 1) + bufSize := by omega
            rw [h0, hsum, Nat.add_div_right _ hbuf, Nat.div_eq_of_lt (by omega)]
        · intro c hc
          rcases List.mem_cons.mp hc with rfl | hc
          · exact ⟨rfl, hpc⟩
          · exact htots c hc
        · intro hproc htotal hmax hs hse he
          clear hcount hrep hmarks
          have hmax2 := hmax
          unfold LONG_MAX at hmax2
          have hp1 : wrap64 (processed + got.length) = ((pos + got.length : Nat) : Int) := by
            rw [hproc]
            push_cast
            exact wrap64_of_range (by omega) (by omega)
          obtain ⟨hall, hpw, hlast⟩ := h4 hp1 htotal hmax hs hse he
          have hpct : percent = s + ((pos + got.length : Nat) : Int) * (e - s) / data.length := by
            have hex := percentOf_exact hs hse he (p := ((pos + got.length : Nat) : Int))
              (t := (data.length : Int)) (by omega) (by exact_mod_cast hgle) (by omega) hmax
            rw [hp1, htotal, hex] at hpc
            exact (Option.some.inj hpc).symm
          simp only at hall hpw hlast
          refine ⟨?_, ?_, ?_⟩
          · intro c hc
            rcases List.mem_cons.mp hc with rfl | hc
            · refine ⟨?_, ?_, htotal, rfl, ?_⟩
              · simp only [hp1]
                omega
              · simp only [hp1]
                exact_mod_cast hgle
              · simp only [hp1]
                exact hpct
            · obtain ⟨a1, a2, a3, a4, a5⟩ := hall c hc
              have a0 : ((pos + got.length : Nat) : Int) < c.processed := a1
              refine ⟨?_, a2, a3, a4, a5⟩
              show (pos : Int) < c.processed
              omega
          · refine List.pairwise_cons.mpr ⟨?_, hpw⟩
            intro c hc
            have a0 : ((pos + got.length : Nat) : Int) < c.processed := (hall c hc).1
            simp only [hp1]
            exact a0
          · intro _
            by_cases hend : pos + got.length = data.length
            · have hw : w1.calls = w.calls ++
                  [(⟨fileName, wrap64 (processed + got.length), totalSize, percent⟩ : UpdateCall)] := by
                rw [h3 hend]
              have hnew : new = [] := by
                rw [hw] at hcalls
                exact List.append_right_eq_self.mp hcalls.symm
              subst hnew
              simp only [List.getLast?_singleton, Option.some.injEq, UpdateCall.mk.injEq, true_and]
              refine ⟨?_, htotal, ?_⟩
              · rw [hp1, hend]
              · rw [hpct, hend]
                have hl : (data.length : Int) ≠ 0 := by omega
                rw [Int.mul_ediv_cancel_left _ hl]
                omega
            · have hl := hlast (by omega)
              cases new with
              | nil => simp at hl
              | cons a rest =>
                rw [List.getLast?_cons_cons]
                exact hl
        · rw [hrep]
          cases new with
          | nil =>
            simp only [lastReport, List.getLast?_nil, List.getLast?_singleton]
            exact repaint_reportFields _ _
          | cons a rest => exact (lastReport_cons_cons _ a rest _ _).symm
        · intro hproc0 h63 k hk0
          have hproc : processed = (pos : Int) := hproc0
          have hk : pos + bufSize * (k + 1) ≤ data.length := hk0
          have h63b := h63
          unfold LLONG_MAX at h63b
          clear hcount hrep h4
          have hbk : bufSize * (k + 1) = bufSize * k + bufSize := Nat.mul_succ bufSize k
          have hg : got.length = bufSize := by
            rw [hgot]
            apply min_eq_left
            omega
          have hp1 : wrap64 (processed + got.length) = ((pos + got.length : Nat) : Int) := by
            rw [hproc]
            push_cast
            exact wrap64_of_range (by omega) (by omega)
          cases k with
          | zero =>
            refine ⟨_, List.mem_cons_self _ _, ?_⟩
            show wrap64 (processed + got.length) = ((pos + bufSize * (0 + 1) : Nat) : Int)
            rw [hp1, hg, Nat.zero_add, Nat.mul_one]
          | succ j =>
            have hbj : bufSize * (j + 1) = bufSize * j + bufSize := Nat.mul_succ bufSize j
            obtain ⟨c, hc, hcp⟩ := hmarks hp1 h63 j (by
              show pos + got.length + bufSize * (j + 1) ≤ data.length
              omega)
            refine ⟨c, List.mem_cons_of_mem _ hc, ?_⟩
            have hcp2 : c.processed = ((pos + got.length + bufSize * (j + 1) : Nat) : Int) := hcp
            show c.processed = ((pos + bufSize * (j + 1 + 1) : Nat) : Int)
            rw [hcp2]
            congr 1
            omega

theorem measuredSize_ne_zero {src : List Byte} (h : src ≠ []) : measuredSize src ≠ 0 := by
  have hl : 0 < src.length := List.length_pos.mpr h
  unfold measuredSize ftell fseekEnd fopenRead
  simp only
  split <;> omega

theorem le_LONG_MAX_of_measured {src : List Byte} (h : measuredSize src = src.length) :
    (src.length : Int) ≤ LONG_MAX := by
  unfold measuredSize ftell fseekEnd fopenRead at h
  simp only at h
  split at h
  · assumption
  · omega

theorem appendFile_run (fuel bufSize : Nat) (paints : Int → Nat)
    (disk : WString → Option (List Byte)) (inPath : WString) (s e : Int) (w : World)
    (src : List Byte) (hdisk : disk inPath = some src) (hbuf : 0 < bufSize)
    (hfuel : src.length + 2 ≤ fuel) :
    ∃ w1, appendFile fuel bufSize paints disk inPath s e w = some (.ok w1) ∧
      w1.out = (fwrite src w.out).2 ∧
      (src = [] → w1 = w) ∧
      ∃ new, w1.calls = w.calls ++ new ∧
        new.length = (src.length + bufSize - 1) / bufSize ∧
        (∀ c ∈ new, c.totalSize = measuredSize src ∧
          percentOf s e c.processed c.totalSize = some c.percent) ∧
        (measuredSize src = src.length → 0 ≤ s → s < e → e ≤ 100 →
          PhaseTrace (filename inPath) s e src.length 0 new) ∧
        reportFields w1.progress = lastReport new w.progress ∧
        ((src.length : Int) ≤ LLONG_MAX → ∀ k, bufSize * (k + 1) ≤ src.length →
          ∃ c ∈ new, c.processed = ((bufSize * (k + 1) : Nat) : Int)) := by
  obtain ⟨w1, h1, h2, h3, new, hcalls, hcount, htots, h4, hrep, hmarks⟩ :=
    appendLoop_run bufSize hbuf paints (filename inPath) (measuredSize src) s e src fuel (fseekSet (fseekEnd (fopenRead src))) 0 w rfl
    (Nat.zero_le _) (by intro h; simp [fseekSet] at h)
    (by
      intro h
      apply measuredSize_ne_zero
      intro hnil
      simp [hnil, fseekSet] at h)
    (by simp [fuelNeeded, fseekSet]; omega)
  refine ⟨w1, ?_, ?_, ?_, new, hcalls, ?_, htots, ?_, hrep, ?_⟩
  · simp only [appendFile, hdisk]
    exact h1
  · simpa [fseekSet] using h2
  · intro hnil
    apply h3
    simp [hnil, fseekSet, fseekEnd, fopenRead]
  · simpa [fseekSet] using hcount
  · intro hm hs hse he
    exact h4 (by simp [fseekSet]) hm (le_LONG_MAX_of_measured hm) hs hse he
  · intro h63 k hk
    obtain ⟨c, hc, hcp⟩ := hmarks (by simp [fseekSet]) h63 k (by simpa [fseekSet] using hk)
    refine ⟨c, hc, ?_⟩
    rw [hcp]
    simp [fseekSet]

/-! ## The claims about the copy -/

theorem fwrite_of_room (buf : List Byte) (o : OutFile) (h : buf.length ≤ o.room) :
    (fwrite buf o).2 = { data := o.data ++ buf, room := o.room - buf.length } := by
  simp [fwrite, List.take_of_length_le h]

theorem copyPhases_run (fuel bufSize : Nat) (paints1 paints2 : Int → Nat)
    (disk : WString → Option (List Byte)) (imgP zipP : WString) (image archive : List Byte)
    (w : World) (himg : disk imgP = some image) (hzip : disk zipP = some archive)
    (hbuf : 0 < bufSize) (hroom : image.length + archive.length ≤ w.out.room)
    (hfuel : image.length + archive.length + 2 ≤ fuel) :
    ∃ w2, copyPhases fuel bufSize paints1 paints2 disk imgP zipP w = some (.ok w2) ∧
      w2.out = { data := w.out.data ++ (image ++ archive),
                 room := w.out.room - (image.length + archive.length) } := by
  obtain ⟨w1, h1, ho1, -, -⟩ := appendFile_run fuel bufSize paints1 disk imgP 0 50 w image himg
    hbuf (by omega)
  obtain ⟨w2, h2, ho2, -, -⟩ := appendFile_run fuel bufSize paints2 disk zipP 50 100 w1 archive
    hzip hbuf (by omega)
  rw [fwrite_of_room _ _ (by omega)] at ho1
  rw [fwrite_of_room _ _ (by rw [ho1]; simp only; omega)] at ho2
  refine ⟨w2, by simp only [copyPhases, h1, h2], ?_⟩
  rw [ho2, ho1]
  simp only [List.append_assoc, OutFile.mk.injEq, true_and]
  omega

/-- C1: when both sources can be opened and the sink, freshly created and empty, has
room for both, the image phase followed by the archive phase ends normally and
leaves exactly the image bytes followed by the archive bytes in the sink, for
every positive chunk size and every schedule of repaints. A run of `wWinMain`
whose arguments name these two files, and whose output file can be created with
that much room, ends with the success dialog, exit code 0 and that output. -/
theorem C1_sink_is_image_then_archive (fuel bufSize : Nat) (paints1 paints2 : Int → Nat)
    (disk : WString → Option (List Byte)) (imgP zipP : WString) (image archive : List Byte)
    (w : World) (himg : disk imgP = some image) (hzip : disk zipP = some archive)
    (hbuf : 0 < bufSize) (hempty : w.out.data = [])
    (hroom : image.length + archive.length ≤ w.out.room)
    (hfuel : image.length + archive.length + 2 ≤ fuel) :
    (∃ w2, copyPhases fuel bufSize paints1 paints2 disk imgP zipP w = some (.ok w2) ∧
      w2.out.data = image ++ archive ∧
      w2.out.data.length = image.length + archive.length ∧
      w2.out.data.take image.length = image ∧
      w2.out.data.drop image.length = archive) ∧
    ∀ (create : WString → Option Nat) (t0 : ℚ) (prog firstPath secondPath : WString) (room : Nat),
      assignRoles firstPath secondPath = (imgP, zipP) → create (outName imgP) = some room →
      image.length + archive.length ≤ room →
      ∃ calls, wWinMain fuel bufSize paints1 paints2 disk create t0 [prog, firstPath, secondPath]
        = some (.exited 0 .success (some (outName imgP)) calls,
            some { data := image ++ archive, room := room - (image.length + archive.length) }) := by
  constructor
  · obtain ⟨w2, h2, ho⟩ := copyPhases_run fuel bufSize paints1 paints2 disk imgP zipP image
      archive w himg hzip hbuf hroom hfuel
    have hdata : w2.out.data = image ++ archive := by
      rw [ho, hempty]
      simp
    refine ⟨w2, h2, hdata, ?_, ?_, ?_⟩
    · rw [hdata, List.length_append]
    · rw [hdata, List.take_left]
    · rw [hdata, List.drop_left]
  · intro create t0 prog firstPath secondPath room hroles hcreate hfits
    obtain ⟨w2, h2, ho⟩ := copyPhases_run fuel bufSize paints1 paints2 disk imgP zipP image
      archive { progress := { initialState with startTime := t0 }
                out := { data := [], room := room }
                calls := [] } himg hzip hbuf hfits hfuel
    refine ⟨w2.calls, ?_⟩
    simp only [wWinMain, hroles, hcreate, h2, ho, List.nil_append]

theorem C1_sink_is_image_then_archive_witness :
    (demoDisk "a.jpg".toList = some [1, 2, 3, 4, 5] ∧ demoDisk "b.zip".toList = some [9, 8, 7] ∧
      (demoWorld 8).out.data = [] ∧
      ([1, 2, 3, 4, 5] : List Byte).length + ([9, 8, 7] : List Byte).length
        ≤ (demoWorld 8).out.room) ∧
    ∃ w2, copyPhases 10 2 (fun _ => 1) (fun _ => 0) demoDisk "a.jpg".toList "b.zip".toList
        (demoWorld 8) = some (.ok w2) ∧
      w2.out.data = [1, 2, 3, 4, 5] ++ [9, 8, 7] ∧
      w2.out.data.length = [1, 2, 3, 4, 5].length + [9, 8, 7].length ∧
      w2.out.data.take [1, 2, 3, 4, 5].length = [1, 2, 3, 4, 5] ∧
      w2.out.data.drop [1, 2, 3, 4, 5].length = [9, 8, 7] :=
  ⟨by decide,
    (C1_sink_is_image_then_archive 10 2 (fun _ => 1) (fun _ => 0) demoDisk "a.jpg".toList
      "b.zip".toList [1, 2, 3, 4, 5] [9, 8, 7] (demoWorld 8) (by decide) (by decide) (by decide)
      (by decide) (by decide) (by decide)).1⟩

theorem scaled_mono {p q t d : Int} (hpq : p ≤ q) (ht : 0 < t) (hd : 0 ≤ d) :
    p * d / t ≤ q * d / t :=
  Int.ediv_le_ediv ht (mul_le_mul_of_nonneg_right hpq hd)

theorem PhaseTrace.nonempty {fileName : WString} {s e : Int} {len pos : Nat}
    {new : List UpdateCall} (h : PhaseTrace fileName s e len pos new) (hlt : pos < len) :
    new ≠ [] := by
  intro hnil
  have := h.2.2 hlt
  simp [hnil] at this

/-- C2: in a phase with `0 ≤ startPercent < endPercent ≤ 100` over a non-empty source
whose measured size is its length, `appendFile` ends normally and calls
`UpdateProgress` once per non-empty chunk, `ceil(size / chunk size)` times and at
least once; the percents it passes, in call order, never decrease and all lie
between `startPercent` and `endPercent`. -/
theorem C2_percents_monotone_in_range (fuel bufSize : Nat) (paints : Int → Nat)
    (disk : WString → Option (List Byte)) (inPath : WString) (startPercent endPercent : Int)
    (w : World) (src : List Byte) (hdisk : disk inPath = some src) (hbuf : 0 < bufSize)
    (hfuel : src.length + 2 ≤ fuel) (hs : 0 ≤ startPercent) (hse : startPercent < endPercent)
    (he : endPercent ≤ 100) (hne : src ≠ []) (hm : measuredSize src = src.length) :
    ∃ w1 new, appendFile fuel bufSize paints disk inPath startPercent endPercent w = some (.ok w1) ∧
      w1.calls = w.calls ++ new ∧
      new.length = (src.length + bufSize - 1) / bufSize ∧ new ≠ [] ∧
      (new.map (fun c => c.percent)).Pairwise (fun a b => a ≤ b) ∧
      ∀ c ∈ new, startPercent ≤ c.percent ∧ c.percent ≤ endPercent := by
  obtain ⟨w1, h1, -, -, new, hcalls, hcount, -, htrace, -⟩ :=
    appendFile_run fuel bufSize paints disk inPath startPercent endPercent w src hdisk hbuf hfuel
  have ht := htrace hm hs hse he
  have hlen : 0 < src.length := List.length_pos.mpr hne
  have hlenZ : (0 : Int) < src.length := by exact_mod_cast hlen
  have hd : 0 ≤ endPercent - startPercent := by omega
  refine ⟨w1, new, h1, hcalls, hcount, ht.nonempty hlen, ?_, ?_⟩
  · rw [List.pairwise_map]
    refine ht.2.1.imp_of_mem ?_
    intro a b ha hb hab
    rw [(ht.1 a ha).2.2.2.2, (ht.1 b hb).2.2.2.2]
    have := scaled_mono hab.le hlenZ hd
    omega
  · intro c hc
    obtain ⟨c1, c2, -, -, c5⟩ := ht.1 c hc
    have hb := scaled_bounds (p := c.processed) (by simp only [Nat.cast_zero] at c1; omega) c2
      hlenZ hd
    omega

theorem C2_percents_monotone_in_range_witness :
    (demoDisk "a.jpg".toList = some [1, 2, 3, 4, 5] ∧ (0 : Int) < 50 ∧
      measuredSize [1, 2, 3, 4, 5] = (([1, 2, 3, 4, 5] : List Byte).length : Int)) ∧
    ∃ w1 new, appendFile 10 2 (fun _ => 1) demoDisk "a.jpg".toList 0 50 (demoWorld 8)
        = some (.ok w1) ∧
      w1.calls = (demoWorld 8).calls ++ new ∧
      new.length = (([1, 2, 3, 4, 5] : List Byte).length + 2 - 1) / 2 ∧ new ≠ [] ∧
      (new.map (fun c => c.percent)).Pairwise (fun a b => a ≤ b) ∧
      ∀ c ∈ new, (0 : Int) ≤ c.percent ∧ c.percent ≤ 50 :=
  ⟨by decide,
    C2_percents_monotone_in_range 10 2 (fun _ => 1) demoDisk "a.jpg".toList 0 50 (demoWorld 8)
      [1, 2, 3, 4, 5] (by decide) (by decide) (by decide) (by decide) (by decide) (by decide)
      (by decide) (by decide)⟩

/-- C10: `appendFile` never divides by a zero `totalSize`. For every source that can
be opened it ends normally, and every `UpdateProgress` call it makes (one per
evaluation of the percent formula) carries a non-zero `totalSize`; for an empty
source it leaves the world as it was: nothing written, no call made, the
progress state untouched; and when the measured size is the length, every
evaluation has `totalSize > 0`. -/
theorem C10_no_division_by_zero (fuel bufSize : Nat) (paints : Int → Nat)
    (disk : WString → Option (List Byte)) (inPath : WString) (startPercent endPercent : Int)
    (w : World) (src : List Byte) (hdisk : disk inPath = some src) (hbuf : 0 < bufSize)
    (hfuel : src.length + 2 ≤ fuel) :
    ∃ w1 new, appendFile fuel bufSize paints disk inPath startPercent endPercent w = some (.ok w1) ∧
      w1.calls = w.calls ++ new ∧
      (∀ c ∈ new, c.totalSize ≠ 0 ∧
        percentOf startPercent endPercent c.processed c.totalSize ≠ none) ∧
      (src = [] → measuredSize src = 0 ∧ w1 = w ∧ new = []) ∧
      (measuredSize src = src.length → ∀ c ∈ new, 0 < c.totalSize) := by
  obtain ⟨w1, h1, -, hsame, new, hcalls, -, htots, -⟩ :=
    appendFile_run fuel bufSize paints disk inPath startPercent endPercent w src hdisk hbuf hfuel
  have hnew : src = [] → new = [] := by
    intro hnil
    rw [hsame hnil] at hcalls
    exact List.append_right_eq_self.mp hcalls.symm
  have hnz : ∀ c ∈ new, c.totalSize ≠ 0 := by
    intro c hc
    rw [(htots c hc).1]
    apply measuredSize_ne_zero
    intro hnil
    rw [hnew hnil] at hc
    simp at hc
  refine ⟨w1, new, h1, hcalls, ?_, ?_, ?_⟩
  · intro c hc
    refine ⟨hnz c hc, ?_⟩
    simp [percentOf, hnz c hc]
  · intro hnil
    refine ⟨?_, hsame hnil, hnew hnil⟩
    subst hnil
    decide
  · intro hm c hc
    have h0 := hnz c hc
    rw [(htots c hc).1] at h0 ⊢
    rw [hm] at h0 ⊢
    omega

theorem C10_no_division_by_zero_witness :
    (emptyDisk "e.zip".toList = some [] ∧ 0 < BUFFER_SIZE) ∧
    appendFile 2 BUFFER_SIZE (fun _ => 1) emptyDisk "e.zip".toList 50 100 (demoWorld 8)
      = some (.ok (demoWorld 8)) := by
  refine ⟨by decide, ?_⟩
  obtain ⟨w1, new, h1, -, -, h4, -⟩ :=
    C10_no_division_by_zero 2 BUFFER_SIZE (fun _ => 1) emptyDisk "e.zip".toList 50 100
      (demoWorld 8) [] (by decide) (by decide) (by decide)
  rw [h1, (h4 rfl).2.1]

/-! ## The claims about the progress state -/

theorem repaint_error (k : Nat) (s : ProgressState) :
    s.target - (repaint k s).displayed = (s.target - s.displayed) * (9 / 10) ^ k := by
  induction k with
  | zero => simp [repaint]
  | succ k ih =>
    rw [repaint_succ]
    have ht := repaint_target k s
    simp only [smoothStep]
    rw [ht, pow_succ]
    linear_combination (9 / 10 : ℚ) * ih

/-- C4: with the target held at `T`, after `N` smoothing steps (one per repaint,
over the rationals) the remaining error is `|T - d0| * 0.9 ^ N`; the error keeps
its sign, so the displayed value does not pass the target, and it stays between
its initial value and the target. -/
theorem C4_geometric_decay (s : ProgressState) (N : Nat) (width : Int) (now : ℚ) :
    (onPaint width now s).state = smoothStep s ∧
    (repaint N s).target = s.target ∧
    |s.target - (repaint N s).displayed| = |s.target - s.displayed| * (9 / 10) ^ N ∧
    0 ≤ (s.target - s.displayed) * (s.target - (repaint N s).displayed) ∧
    min s.displayed s.target ≤ (repaint N s).displayed ∧
    (repaint N s).displayed ≤ max s.displayed s.target := by
  have herr := repaint_error N s
  have hpos : (0 : ℚ) < (9 / 10) ^ N := by positivity
  have hle : ((9 / 10 : ℚ)) ^ N ≤ 1 := pow_le_one₀ (by norm_num) (by norm_num)
  refine ⟨rfl, repaint_target N s, ?_, ?_, ?_, ?_⟩
  · rw [herr, abs_mul, abs_of_pos hpos]
  · rw [herr]
    have : (s.target - s.displayed) * ((s.target - s.displayed) * (9 / 10) ^ N)
        = (s.target - s.displayed) ^ 2 * (9 / 10) ^ N := by ring
    rw [this]
    positivity
  · rcases le_total s.displayed s.target with h | h
    · rw [min_eq_left h]
      have : (s.target - s.displayed) * (9 / 10) ^ N ≤ (s.target - s.displayed) * 1 :=
        mul_le_mul_of_nonneg_left hle (by linarith)
      linarith
    · rw [min_eq_right h]
      have : (s.target - s.displayed) * (9 / 10) ^ N ≤ 0 :=
        mul_nonpos_of_nonpos_of_nonneg (by linarith) hpos.le
      linarith
  · rcases le_total s.displayed s.target with h | h
    · rw [max_eq_right h]
      have : 0 ≤ (s.target - s.displayed) * (9 / 10) ^ N :=
        mul_nonneg (by linarith) hpos.le
      linarith
    · rw [max_eq_left h]
      have : (s.target - s.displayed) * 1 ≤ (s.target - s.displayed) * (9 / 10) ^ N :=
        mul_le_mul_of_nonpos_left hle (by linarith)
      linarith

/-- C5: the remaining-time estimate of the repaint is
`elapsedSeconds * (100 - displayed) / displayed` when `displayed > 0` and `0`
otherwise; it is always defined, so no division by zero is evaluated, and it is `0`
when `displayed` is `0`. The repaint computes it from the displayed value after the
smoothing step. -/
theorem C5_remaining_estimate (elapsedSec displayed : ℚ) (width : Int) (now : ℚ)
    (s : ProgressState) :
    remainingSec elapsedSec displayed
      = some (if 0 < displayed then elapsedSec * (100 - displayed) / displayed else 0) ∧
    remainingSec elapsedSec 0 = some 0 ∧
    (onPaint width now s).remaining
      = remainingSec (now - s.startTime) (onPaint width now s).state.displayed := by
  refine ⟨?_, ?_, rfl⟩
  · unfold remainingSec checkedDiv
    by_cases h : 0 < displayed
    · simp [h, ne_of_gt h]
    · simp [h]
  · simp [remainingSec]

/-- C8, as stated, fails: with target 50 and displayed 50 the repaint leaves
`|target - displayed| = 0 < 0.01`, yet the timer is scheduled again. -/
theorem C8_converged_but_timer_scheduled :
    |(onPaint 580 0 settledAtHalf).state.target - (onPaint 580 0 settledAtHalf).state.displayed|
        < 1 / 100 ∧
      (onPaint 580 0 settledAtHalf).timerScheduled = true := by
  simp only [onPaint, smoothStep, timerAfterPaint, settledAtHalf, initialState]
  norm_num

theorem smoothStep_displayed (s : ProgressState) :
    (smoothStep s).displayed = s.displayed + (s.target - s.displayed) * (1 / 10) := rfl

theorem repaint_below (k : Nat) (s : ProgressState) (b : ℚ) (ht : s.target < b)
    (hd : s.displayed < b) : (repaint k s).displayed < b := by
  induction k with
  | zero => exact hd
  | succ k ih =>
    rw [repaint_succ, smoothStep_displayed, repaint_target]
    linarith

/-- C8, amended: after one tick the timer is cancelled exactly when the displayed
value is at least 99.99, and scheduled again otherwise; the target is not
consulted. With the target held at 100 and the displayed value in `[0, 100]`
this is the test `|target - displayed| ≤ 0.01`, and from the 88th tick on the
timer is cancelled. With the target held below 99.99 and the displayed value
below 99.99 every tick schedules the timer again. -/
theorem C8_timer_follows_displayed (width : Int) (now : ℚ) (s : ProgressState) (n : Nat) :
    ((onPaint width now s).timerScheduled = false
        ↔ 9999 / 100 ≤ (onPaint width now s).state.displayed) ∧
    ((onPaint width now s).timerScheduled = true
        ↔ (onPaint width now s).state.displayed < 9999 / 100) ∧
    (s.target = 100 → 0 ≤ s.displayed → s.displayed ≤ 100 →
      ((onPaint width now s).timerScheduled = false
        ↔ |(onPaint width now s).state.target - (onPaint width now s).state.displayed|
            ≤ 1 / 100) ∧
      (87 ≤ n → (onPaint width now (repaint n s)).timerScheduled = false)) ∧
    (s.target < 9999 / 100 → s.displayed < 9999 / 100 →
      (onPaint width now (repaint n s)).timerScheduled = true) := by
  refine ⟨?_, ?_, ?_, ?_⟩
  · simp [onPaint, timerAfterPaint]
  · simp [onPaint, timerAfterPaint]
  · intro ht h0 h100
    constructor
    · simp only [onPaint, timerAfterPaint, decide_eq_false_iff_not, not_lt]
      have htt : (smoothStep s).target = 100 := ht
      have hle : (smoothStep s).displayed ≤ 100 := by
        rw [smoothStep_displayed, ht]
        linarith
      rw [htt, abs_of_nonneg (by linarith)]
      constructor <;> intro h <;> linarith
    · intro hn
      simp only [onPaint, timerAfterPaint, decide_eq_false_iff_not, not_lt]
      have herr := repaint_error (n + 1) s
      rw [repaint_succ] at herr
      have hpow : ((9 / 10 : ℚ)) ^ (n + 1) ≤ (9 / 10) ^ 88 :=
        pow_le_pow_of_le_one (by norm_num) (by norm_num) (by omega)
      have h88 : ((9 / 10 : ℚ)) ^ 88 * 100 ≤ 1 / 100 := by norm_num
      have hpos : (0 : ℚ) ≤ (9 / 10) ^ (n + 1) := by positivity
      have hmul : (s.target - s.displayed) * (9 / 10) ^ (n + 1) ≤ 100 * (9 / 10) ^ (n + 1) :=
        mul_le_mul_of_nonneg_right (by linarith) hpos
      rw [ht] at herr hmul
      linarith
  · intro ht hd
    simp only [onPaint, timerAfterPaint, decide_eq_true_eq]
    have := repaint_below (n + 1) s (9999 / 100) ht hd
    rwa [repaint_succ] at this

theorem C8_timer_follows_displayed_witness :
    (risingToFull.target = 100 ∧ settledAtHalf.target < 9999 / 100) ∧
      (onPaint 580 0 (repaint 87 risingToFull)).timerScheduled = false ∧
      (onPaint 580 0 (repaint 3 settledAtHalf)).timerScheduled = true :=
  ⟨⟨rfl, by simp [settledAtHalf, initialState]; norm_num⟩,
   ((C8_timer_follows_displayed 580 0 risingToFull 87).2.2.1 rfl (by decide)
      (by simp [risingToFull, initialState])).2 (le_refl 87),
   (C8_timer_follows_displayed 580 0 settledAtHalf 3).2.2.2
      (by simp [settledAtHalf, initialState]; norm_num)
      (by simp [settledAtHalf, initialState]; norm_num)⟩

theorem WithinBounds.step (s : ProgressState) (op : Op) (h : WithinBounds s)
    (hop : op.inRange) : WithinBounds (op.run s) := by
  obtain ⟨h1, h2, h3, h4⟩ := h
  cases op with
  | update fileName processed totalSize percent =>
    obtain ⟨p0, p1⟩ := hop
    refine ⟨?_, ?_, h3, h4⟩
    · show (0 : ℚ) ≤ (percent : ℚ)
      exact_mod_cast p0
    · show (percent : ℚ) ≤ 100
      exact_mod_cast p1
  | paint width now =>
    refine ⟨h1, h2, ?_, ?_⟩
    · show 0 ≤ s.displayed + (s.target - s.displayed) * (1 / 10)
      linarith
    · show s.displayed + (s.target - s.displayed) * (1 / 10) ≤ 100
      linarith

theorem WithinBounds.runOps (ops : List Op) :
    ∀ s, WithinBounds s → (∀ op ∈ ops, op.inRange) → WithinBounds (runOps ops s) := by
  induction ops with
  | nil => intro s h _; exact h
  | cons op rest ih =>
    intro s h hall
    exact ih (op.run s) (h.step s op (hall op (List.mem_cons_self _ _)))
      (fun o ho => hall o (List.mem_cons_of_mem _ ho))

/-- C9: `0 ≤ displayed ≤ 100` holds in the initial state and in every state reached
from it by calls of `UpdateProgress` with a percent in `[0, 100]` and by repaints,
in any order; `UpdateProgress` does not change `displayed`, and a smoothing step
keeps `displayed` in `[0, 100]` whenever the target is in `[0, 100]`. -/
theorem C9_displayed_within_bounds (ops : List Op) (t0 : ℚ) (h : ∀ op ∈ ops, op.inRange) :
    (0 ≤ initialState.displayed ∧ initialState.displayed ≤ 100) ∧
    (0 ≤ (runOps ops { initialState with startTime := t0 }).displayed ∧
      (runOps ops { initialState with startTime := t0 }).displayed ≤ 100) ∧
    (∀ fileName processed totalSize percent st,
      (UpdateProgress fileName processed totalSize percent st).displayed = st.displayed) ∧
    (∀ st width now, WithinBounds st → WithinBounds (onPaint width now st).state) := by
  have h0 : WithinBounds { initialState with startTime := t0 } := by
    simp [WithinBounds, initialState]
  have hr := WithinBounds.runOps ops _ h0 h
  refine ⟨by simp [initialState], ⟨hr.2.2.1, hr.2.2.2⟩, fun _ _ _ _ _ => rfl, ?_⟩
  intro st width now hst
  exact hst.step st (.paint width now) trivial

theorem demoOps_inRange : ∀ op ∈ demoOps, op.inRange := by
  intro op hop
  simp only [demoOps, List.mem_cons, List.mem_singleton, List.not_mem_nil, or_false] at hop
  rcases hop with rfl | rfl | rfl | rfl | rfl <;> simp [Op.inRange]

theorem C9_displayed_within_bounds_witness :
    (∀ op ∈ demoOps, op.inRange) ∧
      0 ≤ (runOps demoOps { initialState with startTime := 0 }).displayed ∧
      (runOps demoOps { initialState with startTime := 0 }).displayed ≤ 100 :=
  ⟨demoOps_inRange, (C9_displayed_within_bounds demoOps 0 demoOps_inRange).2.1⟩

/-! ## The claims about roles and failures -/

/-- C6, as stated, fails: when both arguments have an image extension the first one
is taken as the image, so swapping the arguments swaps the roles and changes the
name of the output file. -/
theorem C6_two_images_order_matters :
    assignRoles "a.jpg".toList "b.png".toList ≠ assignRoles "b.png".toList "a.jpg".toList ∧
      outName (assignRoles "a.jpg".toList "b.png".toList).1
        ≠ outName (assignRoles "b.png".toList "a.jpg".toList).1 := by
  decide

/-- C6, amended: when exactly one of the two argument paths has an extension among
`.jpg`, `.png`, `.jpeg`, both argument orders give the same image and archive, the
image being the path with that extension, the same output file name, and the same
run of `wWinMain`. -/
theorem C6_roles_order_independent (p q : WString)
    (h : isImageExt (extension p) ≠ isImageExt (extension q)) :
    assignRoles p q = assignRoles q p ∧
    isImageExt (extension (assignRoles p q).1) = true ∧
    outName (assignRoles p q).1 = outName (assignRoles q p).1 ∧
    ∀ (fuel bufSize : Nat) (paints1 paints2 : Int → Nat) (disk : WString → Option (List Byte))
      (create : WString → Option Nat) (t0 : ℚ) (prog : WString),
      wWinMain fuel bufSize paints1 paints2 disk create t0 [prog, p, q]
        = wWinMain fuel bufSize paints1 paints2 disk create t0 [prog, q, p] := by
  have hroles : assignRoles p q = assignRoles q p := by
    unfold assignRoles
    cases hp : isImageExt (extension p) <;> cases hq : isImageExt (extension q) <;>
      simp_all
  refine ⟨hroles, ?_, by rw [hroles], ?_⟩
  · unfold assignRoles
    cases hp : isImageExt (extension p) <;> cases hq : isImageExt (extension q) <;>
      simp_all
  · intro fuel bufSize paints1 paints2 disk create t0 prog
    simp only [wWinMain, hroles]

theorem C6_roles_order_independent_witness :
    isImageExt (extension "a.jpg".toList) ≠ isImageExt (extension "b.zip".toList) ∧
      assignRoles "a.jpg".toList "b.zip".toList = assignRoles "b.zip".toList "a.jpg".toList ∧
      assignRoles "b.zip".toList "a.jpg".toList = ("a.jpg".toList, "b.zip".toList) :=
  ⟨by decide, (C6_roles_order_independent "a.jpg".toList "b.zip".toList (by decide)).1,
    by decide⟩

/-- C7 on the code: the sink has room for two bytes, so the write of the five-byte
image chunk is short: `fwrite` accepts two bytes. `appendFile` still counts the
whole chunk and reports it, the archive phase runs, and the run ends with the
success dialog and exit code 0, the output holding two of the eight bytes. -/
theorem C7_short_write_ends_in_success :
    (fwrite [1, 2, 3, 4, 5] { data := [], room := 2 }).1 = 2 ∧
      wWinMain 10 BUFFER_SIZE (fun _ => 1) (fun _ => 1) demoDisk (fun _ => some 2) 0
          (commandLine "a.jpg" "b.zip")
        = some (.exited 0 .success (some "a_fake.jpg".toList)
            [{ fileName := "a.jpg".toList, processed := 5, totalSize := 5, percent := 50 },
             { fileName := "b.zip".toList, processed := 3, totalSize := 3, percent := 100 }],
          some { data := [1, 2], room := 0 }) := by
  decide

end FakePic
